import Mathlib

/-!
Verification of the word-pattern study application (`src/App.js`).

The JavaScript source is shallowly embedded: strings are lists of
characters (`Str`), the two JS `Map`s of the affix indexer are total
functions from keys to buckets (defaulting to the empty bucket, which
matches `map.get(k) || []` / the `has`/`set` idiom), JS `Set`s of
lowercase words are duplicate-free lists in insertion order, and the
React state hooks of the learning session are gathered into one
`SessionState` record that each handler transforms functionally.
-/

namespace GoofyJargon

/-- Strings of the JS source, modelled as lists of characters. -/
abbrev Str := List Char

/-- JS `s.toLowerCase()`: character-wise lower casing. -/
def lowerStr (s : Str) : Str := s.map Char.toLower

/-- JS `s.trim()`: drop whitespace from both ends. -/
def trimStr (s : Str) : Str :=
  ((s.dropWhile Char.isWhitespace).reverse.dropWhile Char.isWhitespace).reverse

/-! ### Affix Indexer (`wordIndices`, App.js lines 69-99) -/

/-- A JS `Map` from substring keys to word buckets, as a total function;
a key that was never `set` maps to the empty bucket. -/
abbrev WordMap := Str → List Str

/-- The `if (!m.has(k)) m.set(k, []); m.get(k).push(w)` idiom: append `w`
to the bucket of `k`, leaving every other bucket unchanged. -/
def mapPush (m : WordMap) (k : Str) (w : Str) : WordMap :=
  fun k' => if k' = k then m k ++ [w] else m k'

/-- The ending keys of one word: `lowerWord.slice(-len)` for
`len = 2 .. min(8, lowerWord.length)`. -/
def endKeys (w : Str) : List Str :=
  (List.range' 2 (min 8 (lowerStr w).length - 1)).map
    (fun len => (lowerStr w).drop ((lowerStr w).length - len))

/-- The starting keys of one word: `lowerWord.slice(0, len)` for
`len = 2 .. min(8, lowerWord.length)`. -/
def startKeys (w : Str) : List Str :=
  (List.range' 2 (min 8 (lowerStr w).length - 1)).map
    (fun len => (lowerStr w).take len)

/-- Index one word into the endings map (the first `for` loop of the
`forEach` body): the original-cased `word` is pushed, keyed by lowercase
endings. -/
def indexWordEnds (m : WordMap) (w : Str) : WordMap :=
  (endKeys w).foldl (fun m k => mapPush m k w) m

/-- Index one word into the starts map (the second `for` loop). -/
def indexWordStarts (m : WordMap) (w : Str) : WordMap :=
  (startKeys w).foldl (fun m k => mapPush m k w) m

/-- The `endsMap` of `wordIndices`: fold the ending indexer over the
dictionary in iteration order. -/
def buildEndsMap (dict : List Str) : WordMap :=
  dict.foldl indexWordEnds (fun _ => [])

/-- The `startsMap` of `wordIndices`. -/
def buildStartsMap (dict : List Str) : WordMap :=
  dict.foldl indexWordStarts (fun _ => [])

/-! ### Pattern Aggregator (`patternsData`, App.js lines 102-132) -/

/-- One aggregate record of `patternsData`, field for field. -/
structure PatternRecord where
  pattern : Str
  length : Nat
  endsWords : List Str
  endsCount : Nat
  startsWords : List Str
  startsCount : Nat
  totalCount : Nat
deriving Repr, DecidableEq

/-- JS `Map.set` on an association list: if the key is present its value
is replaced in place (the key keeps its original position), otherwise
the pair is appended. -/
def mapSet (groups : List (Str × PatternRecord)) (k : Str) (v : PatternRecord) :
    List (Str × PatternRecord) :=
  match groups with
  | [] => [(k, v)]
  | (k', v') :: rest => if k' = k then (k, v) :: rest else (k', v') :: mapSet rest k v

/-- One iteration of the `Object.entries(prefixCounts).forEach` body: look
the lowercase pattern up in both maps and set a grouped record when either
side has at least 2 words. A vocabulary entry is a pattern string paired
with its `data.length` field. -/
def patternGroupsStep (endsMap startsMap : WordMap)
    (groups : List (Str × PatternRecord)) (entry : Str × Nat) :
    List (Str × PatternRecord) :=
  let lowerPattern := lowerStr entry.1
  let wordsEndingWith := endsMap lowerPattern
  let wordsStartingWith := startsMap lowerPattern
  if 2 ≤ wordsEndingWith.length ∨ 2 ≤ wordsStartingWith.length then
    mapSet groups lowerPattern
      { pattern := lowerPattern
        length := entry.2
        endsWords := wordsEndingWith
        endsCount := wordsEndingWith.length
        startsWords := wordsStartingWith
        startsCount := wordsStartingWith.length
        totalCount := wordsEndingWith.length + wordsStartingWith.length }
  else groups

/-- `Array.from(patternGroups.values())`: the records of the group map in
key-insertion order, before sorting. -/
def aggRecords (endsMap startsMap : WordMap) (vocab : List (Str × Nat)) :
    List PatternRecord :=
  (vocab.foldl (patternGroupsStep endsMap startsMap) []).map Prod.snd

/-- The comparator `(a, b) => a.totalCount - b.totalCount` as a relation;
JS `Array.prototype.sort` is stable, which insertion sort realises. -/
def recLE (a b : PatternRecord) : Prop := a.totalCount ≤ b.totalCount

instance : DecidableRel recLE := fun a b => inferInstanceAs (Decidable (_ ≤ _))

instance : IsTotal PatternRecord recLE := ⟨fun a b => Nat.le_total _ _⟩

instance : IsTrans PatternRecord recLE := ⟨fun _ _ _ => Nat.le_trans⟩

/-- `patternsData`: aggregate records sorted ascending by `totalCount`
with a stable sort. -/
def patternsData (endsMap startsMap : WordMap) (vocab : List (Str × Nat)) :
    List PatternRecord :=
  (aggRecords endsMap startsMap vocab).insertionSort recLE

/-! ### Rarity Classifier (`getRarityClass`, App.js lines 135-141) -/

/-- `getRarityClass(count)`, thresholds verbatim. -/
def getRarityClass (count : Int) : String :=
  if count ≤ 5 then "ultra-rare"
  else if count ≤ 10 then "rare"
  else if count ≤ 50 then "uncommon"
  else if count ≤ 200 then "common"
  else "very-common"

/-! ### Drill Set Builder (`rarePatterns`, App.js lines 178-228) -/

/-- One drillable pattern entry as pushed by the `rarePatterns` builder. -/
structure DrillPattern where
  pattern : Str
  side : String
  length : Nat
  words : List Str
  count : Nat
deriving Repr, DecidableEq

/-- The entries pushed for one `PatternRecord`: an ends entry when
`2 ≤ endsCount ≤ 15` and `length ≥ 3`, then a starts entry under the same
bounds on `startsCount`. -/
def drillEntries (p : PatternRecord) : List DrillPattern :=
  (if 2 ≤ p.endsCount ∧ p.endsCount ≤ 15 ∧ 3 ≤ p.length then
    [{ pattern := p.pattern, side := "ends", length := p.length,
       words := p.endsWords, count := p.endsCount }]
   else []) ++
  (if 2 ≤ p.startsCount ∧ p.startsCount ≤ 15 ∧ 3 ≤ p.length then
    [{ pattern := p.pattern, side := "starts", length := p.length,
       words := p.startsWords, count := p.startsCount }]
   else [])

/-- The query test of the `customPatternInput` filter: an ends entry must
end with the query, a starts entry must start with it, anything else is
dropped. -/
def drillQueryTest (query : Str) (d : DrillPattern) : Bool :=
  if d.side = "ends" then query.isSuffixOf d.pattern
  else if d.side = "starts" then query.isPrefixOf d.pattern
  else false

/-- `rarePatterns`: split records into per-side entries, then apply the
side filter, then the custom input filter. -/
def rarePatterns (records : List PatternRecord) (patternTypeFilter : String)
    (customPatternInput : Str) : List DrillPattern :=
  let patterns := records.flatMap drillEntries
  let patterns :=
    if patternTypeFilter ≠ "all" then
      patterns.filter (fun p => p.side = patternTypeFilter)
    else patterns
  if trimStr customPatternInput ≠ [] then
    patterns.filter (drillQueryTest (trimStr (lowerStr customPatternInput)))
  else patterns

/-! ### Learning Session Engine (App.js lines 19-34 and 260-388)

The React `useState` hooks of the learn mode, gathered into one record.
`foundWords` and `attemptedWords` are JS `Set`s of lowercase words,
modelled as duplicate-free lists in insertion order; `new Set([...prev, w])`
is `setInsert`. -/

/-- Insert into a JS `Set`: append when absent, keep unchanged when present. -/
def setInsert (s : List Str) (w : Str) : List Str :=
  if w ∈ s then s else s ++ [w]

/-- The learn-mode React state. -/
structure SessionState where
  isStudying : Bool
  learnMode : String
  selectedPatterns : List String
  currentChallengeIndex : Nat
  userAnswer : Str
  showAnswer : Bool
  correctAnswers : Nat
  totalAttempts : Nat
  foundWords : List Str
  attemptedWords : List Str
  currentWordIndex : Nat
  repeatCount : Nat
  hideWord : Bool
deriving Repr, DecidableEq

/-- `startStudy(mode)`: with an empty selection it only alerts and
returns; otherwise it initialises every session field. -/
def startStudy (mode : String) (s : SessionState) : SessionState :=
  if s.selectedPatterns = [] then s
  else
    { s with
      learnMode := mode
      isStudying := true
      currentChallengeIndex := 0
      correctAnswers := 0
      totalAttempts := 0
      showAnswer := false
      userAnswer := []
      foundWords := []
      attemptedWords := []
      currentWordIndex := 0
      repeatCount := 0
      hideWord := false }

/-- The candidate full word `checkAnswer` constructs from the typed
fragment: fragment + pattern for an ends challenge, pattern + fragment
for a starts challenge. -/
def fullWordOf (ch : DrillPattern) (answer : Str) : Str :=
  let userInput := trimStr (lowerStr answer)
  let pattern := lowerStr ch.pattern
  if ch.side = "ends" then userInput ++ pattern else pattern ++ userInput

/-- `checkAnswer()` of the find-words protocol, reading the typed answer
from `s.userAnswer` and the resolved challenge from `cc` (`none` models an
unresolved `currentChallenge`). -/
def checkAnswer (cc : Option DrillPattern) (s : SessionState) : SessionState :=
  match cc with
  | none => s
  | some ch =>
    if trimStr s.userAnswer = [] then s
    else
      let fullWord := fullWordOf ch s.userAnswer
      if fullWord ∈ s.attemptedWords then { s with userAnswer := [] }
      else
        let matched := ch.words.find? (fun w => lowerStr w = fullWord)
        let scored := matched.isSome ∧ fullWord ∉ s.foundWords
        { s with
          attemptedWords := setInsert s.attemptedWords fullWord
          foundWords := if scored then setInsert s.foundWords fullWord else s.foundWords
          correctAnswers := if scored then s.correctAnswers + 1 else s.correctAnswers
          totalAttempts := s.totalAttempts + 1
          userAnswer := [] }

/-- `showAllWords()`: reveal, charging one attempt when nothing was found. -/
def showAllWords (s : SessionState) : SessionState :=
  { s with
    showAnswer := true
    totalAttempts := if s.foundWords = [] then s.totalAttempts + 1 else s.totalAttempts }

/-- `checkRepeatWord()` of the repeat-after-me protocol. When
`currentWordIndex` is past the word list, the source dereferences
`undefined` and throws before any state update, so the state is returned
unchanged. -/
def checkRepeatWord (cc : Option DrillPattern) (s : SessionState) : SessionState :=
  match cc with
  | none => s
  | some ch =>
    if trimStr s.userAnswer = [] then s
    else
      match ch.words.get? s.currentWordIndex with
      | none => s
      | some currentWord =>
        let userWord := lowerStr (trimStr s.userAnswer)
        let correctWord := lowerStr currentWord
        if userWord = correctWord then
          if s.hideWord then
            { s with
              currentWordIndex := s.currentWordIndex + 1
              repeatCount := 0
              hideWord := false
              correctAnswers := s.correctAnswers + 1
              totalAttempts := s.totalAttempts + 1
              userAnswer := [] }
          else
            let newRepeatCount := s.repeatCount + 1
            if 3 ≤ newRepeatCount then
              { s with
                hideWord := true
                repeatCount := 0
                totalAttempts := s.totalAttempts + 1
                userAnswer := [] }
            else
              { s with
                repeatCount := newRepeatCount
                totalAttempts := s.totalAttempts + 1
                userAnswer := [] }
        else
          { s with totalAttempts := s.totalAttempts + 1, userAnswer := [] }

/-- `skipRepeatWord()`: unconditional advance, no scoring. -/
def skipRepeatWord (s : SessionState) : SessionState :=
  { s with
    currentWordIndex := s.currentWordIndex + 1
    repeatCount := 0
    hideWord := false
    userAnswer := [] }

/-- `nextChallenge()`: advance the challenge and reset per-challenge state. -/
def nextChallenge (s : SessionState) : SessionState :=
  { s with
    currentChallengeIndex := s.currentChallengeIndex + 1
    userAnswer := []
    showAnswer := false
    foundWords := []
    attemptedWords := []
    currentWordIndex := 0
    repeatCount := 0
    hideWord := false }

/-- `resetStudy()`: back to the selection phase, everything cleared. -/
def resetStudy (s : SessionState) : SessionState :=
  { s with
    isStudying := false
    selectedPatterns := []
    currentChallengeIndex := 0
    correctAnswers := 0
    totalAttempts := 0
    showAnswer := false
    userAnswer := []
    foundWords := []
    attemptedWords := []
    currentWordIndex := 0
    repeatCount := 0
    hideWord := false
    learnMode := "find" }

/-- Typing `raw` into the answer box and pressing Submit in find mode. -/
def submitFind (ch : DrillPattern) (raw : Str) (s : SessionState) : SessionState :=
  checkAnswer (some ch) { s with userAnswer := raw }

/-- Typing `raw` into the answer box and pressing Submit in repeat mode. -/
def submitRepeat (ch : DrillPattern) (raw : Str) (s : SessionState) : SessionState :=
  checkRepeatWord (some ch) { s with userAnswer := raw }

/-! ## Claim C7: rarity classifier -/

/-- C7: the rarity classifier is a pure function of the count with
inclusive upper bounds: `count ≤ 5` maps to ultra-rare, `6..10` to rare,
`11..50` to uncommon, `51..200` to common, and `≥ 201` to very-common,
including all the boundary values listed in the claim. -/
theorem c7_rarity_classifier :
    (∀ count : Int,
      (getRarityClass count = "ultra-rare" ↔ count ≤ 5) ∧
      (getRarityClass count = "rare" ↔ 6 ≤ count ∧ count ≤ 10) ∧
      (getRarityClass count = "uncommon" ↔ 11 ≤ count ∧ count ≤ 50) ∧
      (getRarityClass count = "common" ↔ 51 ≤ count ∧ count ≤ 200) ∧
      (getRarityClass count = "very-common" ↔ 201 ≤ count)) ∧
    getRarityClass 5 = "ultra-rare" ∧ getRarityClass 6 = "rare" ∧
    getRarityClass 10 = "rare" ∧ getRarityClass 11 = "uncommon" ∧
    getRarityClass 50 = "uncommon" ∧ getRarityClass 51 = "common" ∧
    getRarityClass 200 = "common" ∧ getRarityClass 201 = "very-common" := by
  refine ⟨fun count => ?_, by decide, by decide, by decide, by decide, by decide,
    by decide, by decide, by decide⟩
  unfold getRarityClass
  split_ifs <;> refine ⟨?_, ?_, ?_, ?_, ?_⟩ <;> constructor <;>
    first
      | (intro h; omega)
      | (intro h; exfalso; revert h; decide)
      | (intro h; rfl)

/-! ## Claim C8: empty selection is a no-op -/

/-- C8: starting a session with an empty selected-pattern set leaves the
entire session state unchanged: the session does not start and every
field keeps its value. -/
theorem c8_empty_selection_noop (mode : String) (s : SessionState)
    (h : s.selectedPatterns = []) : startStudy mode s = s := by
  unfold startStudy
  rw [if_pos h]

/-- Witness for C8 at a concrete idle state. -/
theorem c8_empty_selection_noop_witness :
    startStudy "find"
      { isStudying := false, learnMode := "find", selectedPatterns := []
        currentChallengeIndex := 0, userAnswer := [], showAnswer := false
        correctAnswers := 0, totalAttempts := 0, foundWords := []
        attemptedWords := [], currentWordIndex := 0, repeatCount := 0
        hideWord := false } =
      { isStudying := false, learnMode := "find", selectedPatterns := []
        currentChallengeIndex := 0, userAnswer := [], showAnswer := false
        correctAnswers := 0, totalAttempts := 0, foundWords := []
        attemptedWords := [], currentWordIndex := 0, repeatCount := 0
        hideWord := false } :=
  c8_empty_selection_noop "find" _ rfl

/-! ## Claim C9: skip at the end of the word list -/

/-- C9 counterexample: with the challenge's word list exhausted
(`currentWordIndex = words.length`), invoking skip is not side-effect
free — it still increments `currentWordIndex`, contradicting the claim
that the index is unchanged. -/
theorem c9_skip_out_of_range_counterexample :
    let ch : DrillPattern :=
      { pattern := "ing".toList, side := "ends", length := 3
        words := ["running".toList, "jumping".toList], count := 2 }
    let s : SessionState :=
      { isStudying := true, learnMode := "repeat", selectedPatterns := ["ing_ends"]
        currentChallengeIndex := 0, userAnswer := [], showAnswer := false
        correctAnswers := 1, totalAttempts := 2, foundWords := []
        attemptedWords := [], currentWordIndex := 2, repeatCount := 0
        hideWord := false }
    s.currentWordIndex = ch.words.length ∧
      ¬ (skipRepeatWord s).currentWordIndex = s.currentWordIndex := by
  decide

/-- C9 amended: `skipRepeatWord` performs the same transition at every
index, in range or not: it increments `currentWordIndex` by one, resets
`repeatCount` to 0 and `hideWord` to false, clears the typed answer, and
leaves `correctAnswers`, `totalAttempts` and every other field unchanged
(the completion screen simply no longer offers the skip button once the
index reaches the word-list length). -/
theorem c9_skip_always_advances (s : SessionState) :
    (skipRepeatWord s).currentWordIndex = s.currentWordIndex + 1 ∧
    (skipRepeatWord s).repeatCount = 0 ∧
    (skipRepeatWord s).hideWord = false ∧
    (skipRepeatWord s).userAnswer = [] ∧
    (skipRepeatWord s).correctAnswers = s.correctAnswers ∧
    (skipRepeatWord s).totalAttempts = s.totalAttempts ∧
    (skipRepeatWord s).foundWords = s.foundWords ∧
    (skipRepeatWord s).attemptedWords = s.attemptedWords ∧
    (skipRepeatWord s).currentChallengeIndex = s.currentChallengeIndex ∧
    (skipRepeatWord s).isStudying = s.isStudying := by
  unfold skipRepeatWord
  exact ⟨rfl, rfl, rfl, rfl, rfl, rfl, rfl, rfl, rfl, rfl⟩

/-! ## Claim C10: scoring invariants -/

/-- The scoring invariant: the score numerator never exceeds the
denominator, and every found word was attempted. -/
def scoreInv (s : SessionState) : Prop :=
  s.correctAnswers ≤ s.totalAttempts ∧ ∀ x ∈ s.foundWords, x ∈ s.attemptedWords

/-- Membership in a JS-set insertion. -/
lemma mem_setInsert {x w : Str} {l : List Str} :
    x ∈ setInsert l w ↔ x ∈ l ∨ x = w := by
  unfold setInsert
  split <;> rename_i hw
  · exact ⟨Or.inl, fun h => h.elim id (fun h => h ▸ hw)⟩
  · simp [List.mem_append]

/-- `checkAnswer` preserves the scoring invariant. -/
lemma scoreInv_checkAnswer (cc : Option DrillPattern) (s : SessionState)
    (h : scoreInv s) : scoreInv (checkAnswer cc s) := by
  obtain ⟨hle, hsub⟩ := h
  unfold checkAnswer
  split
  · exact ⟨hle, hsub⟩
  rename_i ch
  split
  · exact ⟨hle, hsub⟩
  dsimp only
  split
  · exact ⟨hle, hsub⟩
  by_cases hsc :
      (ch.words.find? fun w => lowerStr w = fullWordOf ch s.userAnswer).isSome = true ∧
        fullWordOf ch s.userAnswer ∉ s.foundWords
  · simp only [if_pos hsc]
    refine ⟨by show s.correctAnswers + 1 ≤ s.totalAttempts + 1; omega, ?_⟩
    intro x hx
    show x ∈ setInsert s.attemptedWords (fullWordOf ch s.userAnswer)
    rw [mem_setInsert]
    have hx' : x ∈ setInsert s.foundWords (fullWordOf ch s.userAnswer) := hx
    exact (mem_setInsert.1 hx').elim (fun hm => Or.inl (hsub x hm)) Or.inr
  · simp only [if_neg hsc]
    refine ⟨by show s.correctAnswers ≤ s.totalAttempts + 1; omega, ?_⟩
    intro x hx
    show x ∈ setInsert s.attemptedWords (fullWordOf ch s.userAnswer)
    exact mem_setInsert.2 (Or.inl (hsub x hx))

/-- `checkRepeatWord` preserves the scoring invariant. -/
lemma scoreInv_checkRepeatWord (cc : Option DrillPattern) (s : SessionState)
    (h : scoreInv s) : scoreInv (checkRepeatWord cc s) := by
  obtain ⟨hle, hsub⟩ := h
  unfold checkRepeatWord
  split
  · exact ⟨hle, hsub⟩
  split
  · exact ⟨hle, hsub⟩
  split
  · exact ⟨hle, hsub⟩
  dsimp only
  split
  · split
    · exact ⟨by show s.correctAnswers + 1 ≤ s.totalAttempts + 1; omega, hsub⟩
    · split
      · exact ⟨by show s.correctAnswers ≤ s.totalAttempts + 1; omega, hsub⟩
      · exact ⟨by show s.correctAnswers ≤ s.totalAttempts + 1; omega, hsub⟩
  · exact ⟨by show s.correctAnswers ≤ s.totalAttempts + 1; omega, hsub⟩

/-- C10: every session operation preserves the invariant
`correctAnswers ≤ totalAttempts` together with
`foundWords ⊆ attemptedWords`, and under the invariant the integer
percentage `correctAnswers * 100 / totalAttempts` shown by the score
line never exceeds 100. -/
theorem c10_session_invariants (cc : Option DrillPattern) (mode : String)
    (s : SessionState) (h : scoreInv s) :
    scoreInv (startStudy mode s) ∧
    scoreInv (checkAnswer cc s) ∧
    scoreInv (showAllWords s) ∧
    scoreInv (checkRepeatWord cc s) ∧
    scoreInv (skipRepeatWord s) ∧
    scoreInv (nextChallenge s) ∧
    scoreInv (resetStudy s) ∧
    (0 < s.totalAttempts → s.correctAnswers * 100 / s.totalAttempts ≤ 100) := by
  obtain ⟨hle, hsub⟩ := h
  refine ⟨?_, scoreInv_checkAnswer cc s ⟨hle, hsub⟩, ?_,
    scoreInv_checkRepeatWord cc s ⟨hle, hsub⟩, ⟨hle, hsub⟩, ?_, ?_, ?_⟩
  · unfold startStudy
    split
    · exact ⟨hle, hsub⟩
    · exact ⟨Nat.le_refl 0, by simp⟩
  · refine ⟨?_, hsub⟩
    unfold showAllWords
    simp only []
    split <;> omega
  · exact ⟨hle, by simp [nextChallenge]⟩
  · exact ⟨Nat.le_refl 0, by simp [resetStudy]⟩
  · intro hpos
    calc s.correctAnswers * 100 / s.totalAttempts
        ≤ s.totalAttempts * 100 / s.totalAttempts :=
          Nat.div_le_div_right (Nat.mul_le_mul_right 100 hle)
      _ = 100 := Nat.mul_div_cancel_left 100 hpos

/-- Witness for C10 at a concrete mid-session state. -/
theorem c10_session_invariants_witness :
    scoreInv (skipRepeatWord
      { isStudying := true, learnMode := "find", selectedPatterns := ["ing_ends"]
        currentChallengeIndex := 0, userAnswer := [], showAnswer := false
        correctAnswers := 1, totalAttempts := 2
        foundWords := ["running".toList]
        attemptedWords := ["running".toList, "funning".toList]
        currentWordIndex := 0, repeatCount := 0, hideWord := false }) :=
  (c10_session_invariants none "find" _ (by constructor <;> decide)).2.2.2.2.1

/-! ## Claim C2: repeat-after-me protocol -/

/-- Case description of one repeat-mode submission when the current word
resolves and the typed text is not blank. -/
lemma submitRepeat_spec (ch : DrillPattern) (raw : Str) (s : SessionState) (cw : Str)
    (hw : ch.words.get? s.currentWordIndex = some cw) (hnb : trimStr raw ≠ []) :
    submitRepeat ch raw s =
      if lowerStr (trimStr raw) = lowerStr cw then
        if s.hideWord then
          { s with currentWordIndex := s.currentWordIndex + 1, repeatCount := 0
                   hideWord := false, correctAnswers := s.correctAnswers + 1
                   totalAttempts := s.totalAttempts + 1, userAnswer := [] }
        else if 3 ≤ s.repeatCount + 1 then
          { s with hideWord := true, repeatCount := 0
                   totalAttempts := s.totalAttempts + 1, userAnswer := [] }
        else
          { s with repeatCount := s.repeatCount + 1
                   totalAttempts := s.totalAttempts + 1, userAnswer := [] }
      else { s with totalAttempts := s.totalAttempts + 1, userAnswer := [] } := by
  unfold submitRepeat checkRepeatWord
  dsimp only
  rw [if_neg hnb, hw]

/-- C2: in the repeat protocol, with the current word resolved and a
non-blank submission: every submission increments `totalAttempts` by one;
an incorrect submission changes nothing else; a correct submission while
visible with fewer than 2 prior repetitions only increments
`repeatCount`; the third correct submission while visible hides the word
and resets `repeatCount` to 0; a correct submission while hidden
advances `currentWordIndex` by one, resets `repeatCount` and `hideWord`,
and increments `correctAnswers` by exactly one; and starting from
`repeatCount = 0` with the word visible, three correct submissions hide
the word — not one or two — without touching `correctAnswers` or
`currentWordIndex`. -/
theorem c2_repeat_protocol (ch : DrillPattern) (raw : Str) (s : SessionState) (cw : Str)
    (hw : ch.words.get? s.currentWordIndex = some cw) (hnb : trimStr raw ≠ []) :
    (submitRepeat ch raw s).totalAttempts = s.totalAttempts + 1 ∧
    (lowerStr (trimStr raw) ≠ lowerStr cw →
      submitRepeat ch raw s =
        { s with totalAttempts := s.totalAttempts + 1, userAnswer := [] }) ∧
    (lowerStr (trimStr raw) = lowerStr cw → s.hideWord = false → s.repeatCount + 1 < 3 →
      submitRepeat ch raw s =
        { s with repeatCount := s.repeatCount + 1
                 totalAttempts := s.totalAttempts + 1, userAnswer := [] }) ∧
    (lowerStr (trimStr raw) = lowerStr cw → s.hideWord = false → s.repeatCount = 2 →
      submitRepeat ch raw s =
        { s with hideWord := true, repeatCount := 0
                 totalAttempts := s.totalAttempts + 1, userAnswer := [] }) ∧
    (lowerStr (trimStr raw) = lowerStr cw → s.hideWord = true →
      submitRepeat ch raw s =
        { s with currentWordIndex := s.currentWordIndex + 1, repeatCount := 0
                 hideWord := false, correctAnswers := s.correctAnswers + 1
                 totalAttempts := s.totalAttempts + 1, userAnswer := [] }) ∧
    (lowerStr (trimStr raw) = lowerStr cw → s.hideWord = false → s.repeatCount = 0 →
      (submitRepeat ch raw s).hideWord = false ∧
      (submitRepeat ch raw (submitRepeat ch raw s)).hideWord = false ∧
      (submitRepeat ch raw (submitRepeat ch raw (submitRepeat ch raw s))).hideWord = true ∧
      (submitRepeat ch raw (submitRepeat ch raw (submitRepeat ch raw s))).repeatCount = 0 ∧
      (submitRepeat ch raw (submitRepeat ch raw (submitRepeat ch raw s))).correctAnswers
        = s.correctAnswers ∧
      (submitRepeat ch raw (submitRepeat ch raw (submitRepeat ch raw s))).currentWordIndex
        = s.currentWordIndex) := by
  have spec := submitRepeat_spec ch raw s cw hw hnb
  refine ⟨?_, ?_, ?_, ?_, ?_, ?_⟩
  · rw [spec]; split_ifs <;> rfl
  · intro hne; rw [spec, if_neg hne]
  · intro hc hh hlt
    rw [spec, if_pos hc, hh]
    rw [if_neg (by simp), if_neg (by omega)]
  · intro hc hh hr
    rw [spec, if_pos hc, hh]
    rw [if_neg (by simp), if_pos (by omega)]
  · intro hc hh
    rw [spec, if_pos hc, hh, if_pos rfl]
  · intro hc hh hr
    have e1 : submitRepeat ch raw s =
        { s with repeatCount := s.repeatCount + 1
                 totalAttempts := s.totalAttempts + 1, userAnswer := [] } := by
      rw [spec, if_pos hc, hh, if_neg (by simp), if_neg (by omega)]
    have e2 : submitRepeat ch raw
        ({ s with repeatCount := s.repeatCount + 1
                  totalAttempts := s.totalAttempts + 1, userAnswer := [] }) =
        { s with repeatCount := s.repeatCount + 1 + 1
                 totalAttempts := s.totalAttempts + 1 + 1, userAnswer := [] } := by
      rw [submitRepeat_spec ch raw
        ({ s with repeatCount := s.repeatCount + 1
                  totalAttempts := s.totalAttempts + 1, userAnswer := [] }) cw
        (by exact hw) hnb, if_pos hc]
      dsimp only
      rw [hh, if_neg (by simp), if_neg (by omega)]
    have e3 : submitRepeat ch raw
        ({ s with repeatCount := s.repeatCount + 1 + 1
                  totalAttempts := s.totalAttempts + 1 + 1, userAnswer := [] }) =
        { s with hideWord := true, repeatCount := 0
                 totalAttempts := s.totalAttempts + 1 + 1 + 1, userAnswer := [] } := by
      rw [submitRepeat_spec ch raw
        ({ s with repeatCount := s.repeatCount + 1 + 1
                  totalAttempts := s.totalAttempts + 1 + 1, userAnswer := [] }) cw
        (by exact hw) hnb, if_pos hc]
      dsimp only
      rw [hh, if_neg (by simp), if_pos (by omega)]
    rw [e1, e2, e3]
    exact ⟨hh, hh, rfl, rfl, rfl, rfl⟩

/-- Witness for C2: one word typed correctly three times from scratch
becomes hidden, and the first submission charges one attempt. -/
theorem c2_repeat_protocol_witness :
    let ch : DrillPattern :=
      { pattern := "ab".toList, side := "starts", length := 2
        words := ["ab".toList], count := 1 }
    let s : SessionState :=
      { isStudying := true, learnMode := "repeat", selectedPatterns := ["ab_starts"]
        currentChallengeIndex := 0, userAnswer := [], showAnswer := false
        correctAnswers := 0, totalAttempts := 0, foundWords := []
        attemptedWords := [], currentWordIndex := 0, repeatCount := 0
        hideWord := false }
    (submitRepeat ch "ab".toList s).totalAttempts = 1 ∧
      (submitRepeat ch "ab".toList
        (submitRepeat ch "ab".toList (submitRepeat ch "ab".toList s))).hideWord = true := by
  intro ch s
  have h := c2_repeat_protocol ch "ab".toList s "ab".toList (by rfl) (by decide)
  exact ⟨h.1, (h.2.2.2.2.2 (by decide) rfl rfl).2.2.1⟩

/-! ## Claim C3: find-words protocol -/

/-- A resubmitted candidate is discarded: only the input box is cleared. -/
lemma submitFind_attempted (ch : DrillPattern) (raw : Str) (s : SessionState)
    (hnb : trimStr raw ≠ []) (ha : fullWordOf ch raw ∈ s.attemptedWords) :
    submitFind ch raw s = { s with userAnswer := [] } := by
  unfold submitFind checkAnswer
  dsimp only
  rw [if_neg hnb, if_pos ha]

/-- A fresh candidate is recorded: one attempt is charged and the
candidate joins `attemptedWords`. -/
lemma submitFind_fresh_fields (ch : DrillPattern) (raw : Str) (s : SessionState)
    (hnb : trimStr raw ≠ []) (ha : fullWordOf ch raw ∉ s.attemptedWords) :
    (submitFind ch raw s).totalAttempts = s.totalAttempts + 1 ∧
    (submitFind ch raw s).attemptedWords = s.attemptedWords ++ [fullWordOf ch raw] := by
  unfold submitFind checkAnswer
  dsimp only
  rw [if_neg hnb, if_neg ha]
  refine ⟨rfl, ?_⟩
  show setInsert s.attemptedWords (fullWordOf ch raw) = _
  unfold setInsert
  rw [if_neg ha]

/-- A fresh, valid, not-yet-found candidate scores: found set, attempted
set, and both counters all advance together. -/
lemma submitFind_scored (ch : DrillPattern) (raw : Str) (s : SessionState)
    (hnb : trimStr raw ≠ []) (ha : fullWordOf ch raw ∉ s.attemptedWords)
    (hv : ∃ w ∈ ch.words, lowerStr w = fullWordOf ch raw)
    (hf : fullWordOf ch raw ∉ s.foundWords) :
    submitFind ch raw s =
      { s with
        attemptedWords := s.attemptedWords ++ [fullWordOf ch raw]
        foundWords := s.foundWords ++ [fullWordOf ch raw]
        correctAnswers := s.correctAnswers + 1
        totalAttempts := s.totalAttempts + 1
        userAnswer := [] } := by
  unfold submitFind checkAnswer
  dsimp only
  rw [if_neg hnb, if_neg ha]
  have hs : (ch.words.find? fun w => lowerStr w = fullWordOf ch raw).isSome = true := by
    rw [List.find?_isSome]
    obtain ⟨w, hw, he⟩ := hv
    exact ⟨w, hw, by simp [he]⟩
  simp only [if_pos (And.intro hs hf)]
  unfold setInsert
  rw [if_neg ha, if_neg hf]

/-- Submitting a sequence of fresh, pairwise-distinct, valid candidates
scores one point each, from any state whose found words were attempted. -/
lemma find_run (ch : DrillPattern) (gs : List Str) :
    ∀ s : SessionState,
      (∀ x ∈ s.foundWords, x ∈ s.attemptedWords) →
      (∀ g ∈ gs, fullWordOf ch g ∉ s.attemptedWords) →
      (gs.map (fullWordOf ch)).Nodup →
      (∀ g ∈ gs, trimStr g ≠ [] ∧ ∃ w ∈ ch.words, lowerStr w = fullWordOf ch g) →
      (gs.foldl (fun st g => submitFind ch g st) s).correctAnswers
        = s.correctAnswers + gs.length := by
  induction gs with
  | nil => intro s _ _ _ _; simp
  | cons g gs ih =>
    intro s hsub hfresh hnd hval
    have hnb := (hval g (by simp)).1
    have hv := (hval g (by simp)).2
    have ha := hfresh g (by simp)
    have hf : fullWordOf ch g ∉ s.foundWords := fun hm => ha (hsub _ hm)
    rw [List.foldl_cons, submitFind_scored ch g s hnb ha hv hf]
    rw [ih _ ?_ ?_ ?_ ?_]
    · show s.correctAnswers + 1 + gs.length = s.correctAnswers + (g :: gs).length
      simp
      omega
    · intro x hx
      show x ∈ s.attemptedWords ++ [fullWordOf ch g]
      have hx' : x ∈ s.foundWords ++ [fullWordOf ch g] := hx
      rcases List.mem_append.1 hx' with hm | hm
      · exact List.mem_append.2 (Or.inl (hsub x hm))
      · exact List.mem_append.2 (Or.inr hm)
    · intro g' hg'
      have hne : fullWordOf ch g' ≠ fullWordOf ch g := by
        intro he
        have : fullWordOf ch g ∈ gs.map (fullWordOf ch) :=
          he ▸ List.mem_map_of_mem (fullWordOf ch) hg'
        exact (List.nodup_cons.1 hnd).1 this
      have hnm := hfresh g' (List.mem_cons_of_mem g hg')
      show fullWordOf ch g' ∉ s.attemptedWords ++ [fullWordOf ch g]
      intro hm
      rcases List.mem_append.1 hm with hm' | hm'
      · exact hnm hm'
      · exact hne (List.mem_singleton.1 hm')
    · exact (List.nodup_cons.1 hnd).2
    · exact fun g' hg' => hval g' (List.mem_cons_of_mem g hg')

/-- C3: in the find-words protocol, a candidate that was already
attempted is absorbed silently (only the input box is cleared, twice in a
row charges one attempt and changes no counter or set), and, starting
from fresh per-challenge state, submitting any sequence of guesses whose
candidates are pairwise distinct and each match a word of the challenge
yields `correctAnswers` equal to the number of guesses, in any order. -/
theorem c3_find_idempotent_and_order_free (ch : DrillPattern) (raw : Str)
    (s : SessionState) (gs : List Str) :
    (trimStr raw ≠ [] → fullWordOf ch raw ∈ s.attemptedWords →
      submitFind ch raw s = { s with userAnswer := [] }) ∧
    (trimStr raw ≠ [] → fullWordOf ch raw ∉ s.attemptedWords →
      (submitFind ch raw (submitFind ch raw s)).totalAttempts = s.totalAttempts + 1 ∧
      (submitFind ch raw (submitFind ch raw s)).correctAnswers
        = (submitFind ch raw s).correctAnswers ∧
      (submitFind ch raw (submitFind ch raw s)).foundWords
        = (submitFind ch raw s).foundWords ∧
      (submitFind ch raw (submitFind ch raw s)).attemptedWords
        = (submitFind ch raw s).attemptedWords) ∧
    (s.foundWords = [] → s.attemptedWords = [] → s.correctAnswers = 0 →
      (gs.map (fullWordOf ch)).Nodup →
      (∀ g ∈ gs, trimStr g ≠ [] ∧ ∃ w ∈ ch.words, lowerStr w = fullWordOf ch g) →
      (gs.foldl (fun st g => submitFind ch g st) s).correctAnswers = gs.length) := by
  refine ⟨submitFind_attempted ch raw s, ?_, ?_⟩
  · intro hnb ha
    have hfields := submitFind_fresh_fields ch raw s hnb ha
    have hmem : fullWordOf ch raw ∈ (submitFind ch raw s).attemptedWords := by
      rw [hfields.2]; simp
    rw [submitFind_attempted ch raw _ hnb hmem]
    exact ⟨hfields.1, rfl, rfl, rfl⟩
  · intro he hatt hc hnd hval
    rw [find_run ch gs s (by simp [he]) (by simp [hatt]) hnd hval, hc, Nat.zero_add]

/-- Witness for C3: two distinct valid guesses on an ends challenge score
two points; a candidate resubmission is absorbed. -/
theorem c3_find_idempotent_and_order_free_witness :
    let ch : DrillPattern :=
      { pattern := "ing".toList, side := "ends", length := 3
        words := ["running".toList, "jumping".toList], count := 2 }
    let s : SessionState :=
      { isStudying := true, learnMode := "find", selectedPatterns := ["ing_ends"]
        currentChallengeIndex := 0, userAnswer := [], showAnswer := false
        correctAnswers := 0, totalAttempts := 0, foundWords := []
        attemptedWords := [], currentWordIndex := 0, repeatCount := 0
        hideWord := false }
    (["runn".toList, "jump".toList].foldl (fun st g => submitFind ch g st) s).correctAnswers
      = 2 := by
  intro ch s
  exact (c3_find_idempotent_and_order_free ch [] s ["runn".toList, "jump".toList]).2.2
    rfl rfl rfl (by decide) (by decide)

/-! ## Claim C6: drill set builder -/

/-- The drill entries of one record as the claim words them: an ENDS
entry exactly when `endsCount ∈ [2,15]` and `length ≥ 3` and (under a
query) the pattern text ends with the query, then a STARTS entry under
the same numeric bounds with a starts-with test; ENDS before STARTS. -/
def drillSpecEntry (query : Str) (p : PatternRecord) : List DrillPattern :=
  (if (2 ≤ p.endsCount ∧ p.endsCount ≤ 15 ∧ 3 ≤ p.length) ∧ query.isSuffixOf p.pattern then
    [{ pattern := p.pattern, side := "ends", length := p.length,
       words := p.endsWords, count := p.endsCount }]
   else []) ++
  (if (2 ≤ p.startsCount ∧ p.startsCount ≤ 15 ∧ 3 ≤ p.length) ∧ query.isPrefixOf p.pattern then
    [{ pattern := p.pattern, side := "starts", length := p.length,
       words := p.startsWords, count := p.startsCount }]
   else [])

/-- The claim's description of the whole drill set, record order
preserved. An empty query accepts everything, since the empty string is
a suffix and a prefix of every pattern. -/
def drillSetSpec (records : List PatternRecord) (query : Str) : List DrillPattern :=
  records.flatMap (drillSpecEntry query)

/-- The source's per-record entries, filtered by the query test, give
exactly the claim's per-record entries. -/
lemma drillEntries_filter (q : Str) (p : PatternRecord) :
    (drillEntries p).filter (drillQueryTest q) = drillSpecEntry q p := by
  unfold drillEntries drillSpecEntry
  rw [List.filter_append]
  have hte : drillQueryTest q
      { pattern := p.pattern, side := "ends", length := p.length
        words := p.endsWords, count := p.endsCount } = q.isSuffixOf p.pattern := by
    simp [drillQueryTest]
  have hts : drillQueryTest q
      { pattern := p.pattern, side := "starts", length := p.length
        words := p.startsWords, count := p.startsCount } = q.isPrefixOf p.pattern := by
    simp [drillQueryTest]
  congr 1
  · by_cases h1 : 2 ≤ p.endsCount ∧ p.endsCount ≤ 15 ∧ 3 ≤ p.length
    · rw [if_pos h1]
      by_cases hs : q.isSuffixOf p.pattern = true
      · rw [if_pos ⟨h1, hs⟩]
        simp [hte, hs]
      · rw [if_neg (fun hc => hs hc.2)]
        simp [hte, hs]
    · rw [if_neg h1, if_neg (fun hc => h1 hc.1)]
      rfl
  · by_cases h2 : 2 ≤ p.startsCount ∧ p.startsCount ≤ 15 ∧ 3 ≤ p.length
    · rw [if_pos h2]
      by_cases hp : q.isPrefixOf p.pattern = true
      · rw [if_pos ⟨h2, hp⟩]
        simp [hts, hp]
      · rw [if_neg (fun hc => hp hc.2)]
        simp [hts, hp]
    · rw [if_neg h2, if_neg (fun hc => h2 hc.1)]
      rfl

/-- The unfiltered source entries are the claim's entries at the empty
query. -/
lemma drillEntries_eq_spec_nil (p : PatternRecord) :
    drillEntries p = drillSpecEntry [] p := by
  have hs : ([] : Str).isSuffixOf p.pattern = true := by simp
  have hp : ([] : Str).isPrefixOf p.pattern = true := by simp
  by_cases h1 : 2 ≤ p.endsCount ∧ p.endsCount ≤ 15 ∧ 3 ≤ p.length <;>
  by_cases h2 : 2 ≤ p.startsCount ∧ p.startsCount ≤ 15 ∧ 3 ≤ p.length <;>
  simp [drillEntries, drillSpecEntry, h1, h2, hs, hp]

/-- C6: with the side filter on "all", the drill set builder emits, in
record order and ENDS before STARTS per record, exactly the entries whose
count lies in `[2,15]` with `length ≥ 3`; a blank affix query keeps them
all, and a non-blank query keeps an ENDS entry only when its pattern text
ends with the case-folded trimmed query and a STARTS entry only when its
pattern text starts with it. -/
theorem c6_drill_set_builder (records : List PatternRecord) (q : Str) :
    (trimStr q = [] → rarePatterns records "all" q = drillSetSpec records []) ∧
    (trimStr q ≠ [] →
      rarePatterns records "all" q = drillSetSpec records (trimStr (lowerStr q))) := by
  constructor
  · intro hb
    unfold rarePatterns
    rw [if_neg (fun h => h hb), if_neg (fun h => h rfl)]
    unfold drillSetSpec
    induction records with
    | nil => rfl
    | cons p rest ih =>
      rw [List.flatMap_cons, List.flatMap_cons, ih, drillEntries_eq_spec_nil]
  · intro hb
    unfold rarePatterns
    rw [if_pos hb, if_neg (fun h => h rfl)]
    unfold drillSetSpec
    induction records with
    | nil => rfl
    | cons p rest ih =>
      rw [List.flatMap_cons, List.flatMap_cons, List.filter_append, ih,
        drillEntries_filter]

/-- Witness for C6 on a one-record drill set with a non-blank query. -/
theorem c6_drill_set_builder_witness :
    let r : PatternRecord :=
      { pattern := "ing".toList, length := 3
        endsWords := ["running".toList, "jumping".toList, "swimming".toList, "walking".toList]
        endsCount := 4, startsWords := [], startsCount := 0, totalCount := 4 }
    rarePatterns [r] "all" "ng".toList = drillSetSpec [r] (trimStr (lowerStr "ng".toList)) := by
  intro r
  exact (c6_drill_set_builder [r] "ng".toList).2 (by decide)

/-! ## Claim C4: affix indexer -/

/-- A word lands in the ending bucket of key `k` exactly when `k` is a
suffix of its lowercased form with length in `[2, min(8, length)]`. -/
def endsBucketPred (k w : Str) : Prop :=
  2 ≤ k.length ∧ k.length ≤ min 8 (lowerStr w).length ∧ k <:+ lowerStr w

/-- The starting-bucket membership condition. -/
def startsBucketPred (k w : Str) : Prop :=
  2 ≤ k.length ∧ k.length ≤ min 8 (lowerStr w).length ∧ k <+: lowerStr w

instance (k w : Str) : Decidable (endsBucketPred k w) :=
  inferInstanceAs (Decidable (_ ∧ _ ∧ _))

instance (k w : Str) : Decidable (startsBucketPred k w) :=
  inferInstanceAs (Decidable (_ ∧ _ ∧ _))

/-- Folding `mapPush` over a duplicate-free key list appends the word to
exactly the buckets whose key occurs in the list. -/
lemma foldl_mapPush (w : Str) (ks : List Str) (hnd : ks.Nodup) :
    ∀ (m : WordMap) (k : Str),
      (ks.foldl (fun m k => mapPush m k w) m) k
        = m k ++ (if k ∈ ks then [w] else []) := by
  induction ks with
  | nil => intro m k; simp
  | cons k0 rest ih =>
    intro m k
    rw [List.foldl_cons, ih (List.nodup_cons.1 hnd).2]
    by_cases he : k = k0
    · subst he
      have h1 : mapPush m k w k = m k ++ [w] := by
        unfold mapPush; rw [if_pos rfl]
      rw [h1, if_neg (List.nodup_cons.1 hnd).1, if_pos (List.mem_cons_self _ _)]
      simp
    · have h1 : mapPush m k0 w k = m k := by
        unfold mapPush; rw [if_neg he]
      rw [h1]
      by_cases hr : k ∈ rest
      · rw [if_pos hr, if_pos (List.mem_cons_of_mem _ hr)]
      · rw [if_neg hr, if_neg (by simp [he, hr])]

/-- Membership in the ending-key list of one word. -/
lemma endKeys_mem {w k : Str} : k ∈ endKeys w ↔ endsBucketPred k w := by
  unfold endKeys endsBucketPred
  rw [List.mem_map]
  have hmr := Nat.min_le_right 8 (lowerStr w).length
  constructor
  · rintro ⟨L, hL, rfl⟩
    rw [List.mem_range'_1] at hL
    have hlen : ((lowerStr w).drop ((lowerStr w).length - L)).length = L := by
      rw [List.length_drop]; omega
    exact ⟨by omega, by omega, List.drop_suffix _ _⟩
  · rintro ⟨h2, h8, hsuf⟩
    refine ⟨k.length, ?_, ?_⟩
    · rw [List.mem_range'_1]; omega
    · obtain ⟨t, ht⟩ := hsuf
      rw [← ht, List.length_append, Nat.add_sub_cancel, List.drop_left]

/-- Membership in the starting-key list of one word. -/
lemma startKeys_mem {w k : Str} : k ∈ startKeys w ↔ startsBucketPred k w := by
  unfold startKeys startsBucketPred
  rw [List.mem_map]
  have hmr := Nat.min_le_right 8 (lowerStr w).length
  constructor
  · rintro ⟨L, hL, rfl⟩
    rw [List.mem_range'_1] at hL
    have hlen : ((lowerStr w).take L).length = L := by
      rw [List.length_take]; omega
    exact ⟨by omega, by omega, List.take_prefix _ _⟩
  · rintro ⟨h2, h8, hpre⟩
    refine ⟨k.length, ?_, ?_⟩
    · rw [List.mem_range'_1]; omega
    · obtain ⟨t, ht⟩ := hpre
      rw [← ht, List.take_left]

/-- The ending keys of one word are pairwise distinct (their lengths
differ). -/
lemma endKeys_nodup (w : Str) : (endKeys w).Nodup := by
  unfold endKeys
  have hmr := Nat.min_le_right 8 (lowerStr w).length
  refine List.Nodup.map_on ?_ (List.nodup_range' _ _)
  intro x hx y hy he
  rw [List.mem_range'_1] at hx hy
  have hex := congrArg List.length he
  rw [List.length_drop, List.length_drop] at hex
  omega

/-- The starting keys of one word are pairwise distinct. -/
lemma startKeys_nodup (w : Str) : (startKeys w).Nodup := by
  unfold startKeys
  have hmr := Nat.min_le_right 8 (lowerStr w).length
  refine List.Nodup.map_on ?_ (List.nodup_range' _ _)
  intro x hx y hy he
  rw [List.mem_range'_1] at hx hy
  have hex := congrArg List.length he
  rw [List.length_take, List.length_take] at hex
  omega

/-- Indexing one word appends it to exactly the buckets whose key
satisfies the bucket condition. -/
lemma indexWordEnds_apply (m : WordMap) (w k : Str) :
    indexWordEnds m w k = m k ++ (if endsBucketPred k w then [w] else []) := by
  unfold indexWordEnds
  rw [foldl_mapPush w (endKeys w) (endKeys_nodup w)]
  congr 1
  by_cases h : endsBucketPred k w
  · rw [if_pos (endKeys_mem.2 h), if_pos h]
  · rw [if_neg (fun hm => h (endKeys_mem.1 hm)), if_neg h]

/-- Starts-side version of `indexWordEnds_apply`. -/
lemma indexWordStarts_apply (m : WordMap) (w k : Str) :
    indexWordStarts m w k = m k ++ (if startsBucketPred k w then [w] else []) := by
  unfold indexWordStarts
  rw [foldl_mapPush w (startKeys w) (startKeys_nodup w)]
  congr 1
  by_cases h : startsBucketPred k w
  · rw [if_pos (startKeys_mem.2 h), if_pos h]
  · rw [if_neg (fun hm => h (startKeys_mem.1 hm)), if_neg h]

/-- Every ending bucket is the dictionary filtered by the bucket
condition, in dictionary order. -/
lemma buildEndsMap_eq_filter (dict : List Str) (k : Str) :
    buildEndsMap dict k = dict.filter (fun w => decide (endsBucketPred k w)) := by
  suffices h : ∀ m : WordMap, (dict.foldl indexWordEnds m) k
      = m k ++ dict.filter (fun w => decide (endsBucketPred k w)) by
    simpa using h (fun _ => [])
  induction dict with
  | nil => intro m; simp
  | cons w rest ih =>
    intro m
    rw [List.foldl_cons, ih, indexWordEnds_apply, List.filter_cons, List.append_assoc]
    by_cases h : endsBucketPred k w
    · simp [h]
    · simp [h]

/-- Starts-side version of `buildEndsMap_eq_filter`. -/
lemma buildStartsMap_eq_filter (dict : List Str) (k : Str) :
    buildStartsMap dict k = dict.filter (fun w => decide (startsBucketPred k w)) := by
  suffices h : ∀ m : WordMap, (dict.foldl indexWordStarts m) k
      = m k ++ dict.filter (fun w => decide (startsBucketPred k w)) by
    simpa using h (fun _ => [])
  induction dict with
  | nil => intro m; simp
  | cons w rest ih =>
    intro m
    rw [List.foldl_cons, ih, indexWordStarts_apply, List.filter_cons, List.append_assoc]
    by_cases h : startsBucketPred k w
    · simp [h]
    · simp [h]

/-- C4 counterexample: the buckets hold the original-cased word, not its
lowercase form. For the dictionary `["Ab"]` and `L = 2` (which is in
`[2, min(8, |W|)]`), `lower("Ab") = "ab"` is absent from the ending
bucket keyed `"ab"` — the bucket holds `"Ab"` itself. -/
theorem c4_lowercase_membership_counterexample :
    "Ab".toList ∈ ["Ab".toList] ∧
    2 ≤ 2 ∧ 2 ≤ min 8 (lowerStr "Ab".toList).length ∧
    lowerStr "Ab".toList ∉
      buildEndsMap ["Ab".toList]
        ((lowerStr "Ab".toList).drop ((lowerStr "Ab".toList).length - 2)) := by
  decide

/-- C4 amended: after indexing, for every word `W` of the list and every
length `L` in `[2, min(8, |W|)]`, the word `W` itself (with its original
casing) appears in `endsBy[lower(W)[-L:]]` and in
`startsBy[lower(W)[:L]]`; moreover every bucket equals the word list
filtered by its membership condition, so the order of entries within
each bucket is the word list's iteration order. -/
theorem c4_affix_indexer (dict : List Str) (w : Str) (L : Nat) (hw : w ∈ dict)
    (h2 : 2 ≤ L) (h8 : L ≤ min 8 (lowerStr w).length) :
    w ∈ buildEndsMap dict ((lowerStr w).drop ((lowerStr w).length - L)) ∧
    w ∈ buildStartsMap dict ((lowerStr w).take L) ∧
    (∀ k, buildEndsMap dict k = dict.filter (fun x => decide (endsBucketPred k x)) ∧
      buildStartsMap dict k = dict.filter (fun x => decide (startsBucketPred k x))) := by
  have hmr := Nat.min_le_right 8 (lowerStr w).length
  refine ⟨?_, ?_, fun k => ⟨buildEndsMap_eq_filter dict k, buildStartsMap_eq_filter dict k⟩⟩
  · rw [buildEndsMap_eq_filter, List.mem_filter]
    refine ⟨hw, ?_⟩
    rw [decide_eq_true_eq]
    have hlen : ((lowerStr w).drop ((lowerStr w).length - L)).length = L := by
      rw [List.length_drop]; omega
    exact ⟨by omega, by omega, List.drop_suffix _ _⟩
  · rw [buildStartsMap_eq_filter, List.mem_filter]
    refine ⟨hw, ?_⟩
    rw [decide_eq_true_eq]
    have hlen : ((lowerStr w).take L).length = L := by
      rw [List.length_take]; omega
    exact ⟨by omega, by omega, List.take_prefix _ _⟩

/-- Witness for C4 on the dictionary `["running"]` with `L = 3`. -/
theorem c4_affix_indexer_witness :
    "running".toList ∈
      buildEndsMap ["running".toList]
        ((lowerStr "running".toList).drop ((lowerStr "running".toList).length - 3)) ∧
    "running".toList ∈ buildStartsMap ["running".toList] ((lowerStr "running".toList).take 3) := by
  have h := c4_affix_indexer ["running".toList] "running".toList 3
    (by decide) (by decide) (by decide)
  exact ⟨h.1, h.2.1⟩

/-! ## Claim C1: pattern aggregator retention -/

/-- The retention test of the aggregator: at least one side has 2 or
more words. -/
def keepCond (em sm : WordMap) (p : Str) : Prop :=
  2 ≤ (em p).length ∨ 2 ≤ (sm p).length

/-- Well-formedness of one stored group entry: the record carries its
key, its `totalCount` is the sum of the side counts, and at least 2. -/
def recWF (kv : Str × PatternRecord) : Prop :=
  kv.2.pattern = kv.1 ∧
  kv.2.totalCount = kv.2.endsCount + kv.2.startsCount ∧
  2 ≤ kv.2.totalCount

/-- Key membership after a `Map.set`. -/
lemma mapSet_key_mem (groups : List (Str × PatternRecord)) (k : Str)
    (v : PatternRecord) (p : Str) :
    (∃ kv ∈ mapSet groups k v, kv.1 = p) ↔ (∃ kv ∈ groups, kv.1 = p) ∨ p = k := by
  induction groups with
  | nil =>
    constructor
    · rintro ⟨kv, hkv, hp⟩
      rcases List.mem_singleton.1 hkv with rfl
      exact Or.inr hp.symm
    · rintro (⟨kv, hkv, _⟩ | rfl)
      · exact absurd hkv (List.not_mem_nil kv)
      · exact ⟨(p, v), by simp [mapSet]⟩
  | cons hd rest ih =>
    obtain ⟨k', v'⟩ := hd
    show (∃ kv ∈ if k' = k then (k, v) :: rest else (k', v') :: mapSet rest k v, kv.1 = p) ↔ _
    split <;> rename_i he
    · subst he
      constructor
      · rintro ⟨kv, hkv, hp⟩
        rcases List.mem_cons.1 hkv with rfl | hm
        · exact Or.inr hp.symm
        · exact Or.inl ⟨kv, List.mem_cons_of_mem _ hm, hp⟩
      · rintro (⟨kv, hkv, hp⟩ | rfl)
        · rcases List.mem_cons.1 hkv with rfl | hm
          · exact ⟨(k', v), List.mem_cons_self _ _, hp⟩
          · exact ⟨kv, List.mem_cons_of_mem _ hm, hp⟩
        · exact ⟨(p, v), List.mem_cons_self _ _, rfl⟩
    · constructor
      · rintro ⟨kv, hkv, hp⟩
        rcases List.mem_cons.1 hkv with rfl | hm
        · exact Or.inl ⟨(k', v'), List.mem_cons_self _ _, hp⟩
        · rcases (ih.1 ⟨kv, hm, hp⟩) with h | h
          · obtain ⟨kv', hkv', hp'⟩ := h
            exact Or.inl ⟨kv', List.mem_cons_of_mem _ hkv', hp'⟩
          · exact Or.inr h
      · rintro (⟨kv, hkv, hp⟩ | rfl)
        · rcases List.mem_cons.1 hkv with rfl | hm
          · exact ⟨(k', v'), List.mem_cons_self _ _, hp⟩
          · obtain ⟨kv', hkv', hp'⟩ := ih.2 (Or.inl ⟨kv, hm, hp⟩)
            exact ⟨kv', List.mem_cons_of_mem _ hkv', hp'⟩
        · obtain ⟨kv', hkv', hp'⟩ := ih.2 (Or.inr rfl)
          exact ⟨kv', List.mem_cons_of_mem _ hkv', hp'⟩

/-- Key membership after one aggregator step. -/
lemma step_key_mem (em sm : WordMap) (groups : List (Str × PatternRecord))
    (e : Str × Nat) (p : Str) :
    (∃ kv ∈ patternGroupsStep em sm groups e, kv.1 = p) ↔
      (∃ kv ∈ groups, kv.1 = p) ∨ (p = lowerStr e.1 ∧ keepCond em sm (lowerStr e.1)) := by
  unfold patternGroupsStep keepCond
  dsimp only
  split <;> rename_i hc
  · rw [mapSet_key_mem]
    constructor
    · rintro (h | h)
      · exact Or.inl h
      · exact Or.inr ⟨h, hc⟩
    · rintro (h | ⟨h, _⟩)
      · exact Or.inl h
      · exact Or.inr h
  · constructor
    · exact Or.inl
    · rintro (h | ⟨_, hk⟩)
      · exact h
      · exact absurd hk hc

/-- Key membership after the whole aggregation fold. -/
lemma foldl_key_mem (em sm : WordMap) (vocab : List (Str × Nat)) :
    ∀ (groups : List (Str × PatternRecord)) (p : Str),
      (∃ kv ∈ vocab.foldl (patternGroupsStep em sm) groups, kv.1 = p) ↔
      (∃ kv ∈ groups, kv.1 = p) ∨
        (∃ e ∈ vocab, p = lowerStr e.1 ∧ keepCond em sm (lowerStr e.1)) := by
  induction vocab with
  | nil =>
    intro groups p
    rw [List.foldl_nil]
    constructor
    · exact Or.inl
    · rintro (h | ⟨e, he, _⟩)
      · exact h
      · cases he
  | cons e rest ih =>
    intro groups p
    rw [List.foldl_cons, ih, step_key_mem]
    constructor
    · rintro ((h | h) | h)
      · exact Or.inl h
      · exact Or.inr ⟨e, List.mem_cons_self _ _, h.1, h.2⟩
      · obtain ⟨e', he', hp⟩ := h
        exact Or.inr ⟨e', List.mem_cons_of_mem _ he', hp⟩
    · rintro (h | ⟨e', he', hp⟩)
      · exact Or.inl (Or.inl h)
      · rcases List.mem_cons.1 he' with rfl | hm
        · exact Or.inl (Or.inr hp)
        · exact Or.inr ⟨e', hm, hp⟩

/-- `Map.set` preserves a pointwise property of group entries. -/
lemma mapSet_forall {P : Str × PatternRecord → Prop}
    (groups : List (Str × PatternRecord)) (k : Str) (v : PatternRecord)
    (hg : ∀ kv ∈ groups, P kv) (hv : P (k, v)) :
    ∀ kv ∈ mapSet groups k v, P kv := by
  induction groups with
  | nil =>
    intro kv hkv
    rcases List.mem_singleton.1 hkv with rfl
    exact hv
  | cons hd rest ih =>
    obtain ⟨k', v'⟩ := hd
    intro kv hkv
    rw [show mapSet ((k', v') :: rest) k v
        = if k' = k then (k, v) :: rest else (k', v') :: mapSet rest k v from rfl] at hkv
    split at hkv
    · rcases List.mem_cons.1 hkv with rfl | hm
      · exact hv
      · exact hg kv (List.mem_cons_of_mem _ hm)
    · rcases List.mem_cons.1 hkv with rfl | hm
      · exact hg _ (List.mem_cons_self _ _)
      · exact ih (fun kv hkv => hg kv (List.mem_cons_of_mem _ hkv)) kv hm

/-- Every entry stored by the aggregation fold is well-formed. -/
lemma foldl_recWF (em sm : WordMap) (vocab : List (Str × Nat)) :
    ∀ groups, (∀ kv ∈ groups, recWF kv) →
      ∀ kv ∈ vocab.foldl (patternGroupsStep em sm) groups, recWF kv := by
  induction vocab with
  | nil =>
    intro groups hg
    rw [List.foldl_nil]
    exact hg
  | cons e rest ih =>
    intro groups hg
    rw [List.foldl_cons]
    refine ih _ ?_
    unfold patternGroupsStep
    dsimp only
    split <;> rename_i hc
    · refine mapSet_forall _ _ _ hg ⟨rfl, rfl, ?_⟩
      show 2 ≤ (em (lowerStr e.1)).length + (sm (lowerStr e.1)).length
      rcases hc with h | h <;> omega
    · exact hg

/-- C1 counterexample: for the dictionary `["ab"]` and vocabulary entry
`"ab"`, the two lookup sizes sum to 2, yet no record is produced — the
source requires one single side to reach 2, not the sum. -/
theorem c1_sum_retention_counterexample :
    2 ≤ ((buildEndsMap ["ab".toList]) (lowerStr "ab".toList)).length
        + ((buildStartsMap ["ab".toList]) (lowerStr "ab".toList)).length ∧
    patternsData (buildEndsMap ["ab".toList]) (buildStartsMap ["ab".toList])
      [("ab".toList, 2)] = [] := by
  decide

/-- C1 amended: the aggregator produces a record for a lowercase pattern
exactly when some vocabulary entry lowers to it and at least one of the
two lookups has 2 or more words (the disjunction, not the sum); every
produced record still satisfies `totalCount = endsCount + startsCount`
and `totalCount ≥ 2`. -/
theorem c1_aggregator_retention (em sm : WordMap) (vocab : List (Str × Nat)) (p : Str) :
    (∀ r ∈ patternsData em sm vocab,
      r.totalCount = r.endsCount + r.startsCount ∧ 2 ≤ r.totalCount) ∧
    ((∃ r ∈ patternsData em sm vocab, r.pattern = p) ↔
      (∃ e ∈ vocab, p = lowerStr e.1) ∧ (2 ≤ (em p).length ∨ 2 ≤ (sm p).length)) := by
  constructor
  · intro r hr
    rw [patternsData, List.mem_insertionSort recLE, aggRecords, List.mem_map] at hr
    obtain ⟨kv, hkv, rfl⟩ := hr
    have hwf := foldl_recWF em sm vocab [] (by simp) kv hkv
    exact ⟨hwf.2.1, hwf.2.2⟩
  · have hmm : (∃ r ∈ patternsData em sm vocab, r.pattern = p) ↔
        ∃ kv ∈ vocab.foldl (patternGroupsStep em sm) [], kv.1 = p := by
      unfold patternsData aggRecords
      constructor
      · rintro ⟨r, hr, hp⟩
        rw [List.mem_insertionSort recLE, List.mem_map] at hr
        obtain ⟨kv, hkv, rfl⟩ := hr
        have hwf := foldl_recWF em sm vocab [] (by simp) kv hkv
        exact ⟨kv, hkv, by rw [← hwf.1]; exact hp⟩
      · rintro ⟨kv, hkv, hp⟩
        have hwf := foldl_recWF em sm vocab [] (by simp) kv hkv
        refine ⟨kv.2, ?_, by rw [hwf.1]; exact hp⟩
        rw [List.mem_insertionSort recLE, List.mem_map]
        exact ⟨kv, hkv, rfl⟩
    rw [hmm, foldl_key_mem]
    constructor
    · rintro (⟨kv, hkv, _⟩ | ⟨e, he, hp, hk⟩)
      · exact absurd hkv (by simp)
      · exact ⟨⟨e, he, hp⟩, by rw [hp]; exact hk⟩
    · rintro ⟨⟨e, he, hp⟩, hk⟩
      exact Or.inr ⟨e, he, hp, by rw [← hp]; exact hk⟩

/-- Witness for C1: the pattern `"ing"` over `["running", "jumping"]` is
retained. -/
theorem c1_aggregator_retention_witness :
    ∃ r ∈ patternsData (buildEndsMap ["running".toList, "jumping".toList])
        (buildStartsMap ["running".toList, "jumping".toList]) [("ing".toList, 3)],
      r.pattern = "ing".toList :=
  (c1_aggregator_retention (buildEndsMap ["running".toList, "jumping".toList])
    (buildStartsMap ["running".toList, "jumping".toList])
    [("ing".toList, 3)] "ing".toList).2.mpr (by decide)

/-! ## Claim C5: ascending stable order of `patternsData` -/

/-- The record a vocabulary entry contributes, when it is kept. -/
def recOfEntry (em sm : WordMap) (e : Str × Nat) : Option PatternRecord :=
  if 2 ≤ (em (lowerStr e.1)).length ∨ 2 ≤ (sm (lowerStr e.1)).length then
    some
      { pattern := lowerStr e.1
        length := e.2
        endsWords := em (lowerStr e.1)
        endsCount := (em (lowerStr e.1)).length
        startsWords := sm (lowerStr e.1)
        startsCount := (sm (lowerStr e.1)).length
        totalCount := (em (lowerStr e.1)).length + (sm (lowerStr e.1)).length }
  else none

/-- The keyed version of `recOfEntry`, as stored in the group map. -/
def pairOfEntry (em sm : WordMap) (e : Str × Nat) : Option (Str × PatternRecord) :=
  (recOfEntry em sm e).map (fun r => (lowerStr e.1, r))

/-- Inserting before the first strictly-greater element commutes with
filtering one `totalCount` class: the inserted record lands in front of
its class and every other class is untouched. -/
lemma filter_orderedInsert (c : Nat) (a : PatternRecord) (l : List PatternRecord) :
    (l.orderedInsert recLE a).filter (fun r => decide (r.totalCount = c))
      = if a.totalCount = c
        then a :: l.filter (fun r => decide (r.totalCount = c))
        else l.filter (fun r => decide (r.totalCount = c)) := by
  induction l with
  | nil =>
    by_cases hc : a.totalCount = c <;> simp [List.orderedInsert, List.filter_cons, hc]
  | cons b l ih =>
    rw [List.orderedInsert]
    split <;> rename_i hab
    · by_cases hc : a.totalCount = c <;> simp [List.filter_cons, hc]
    · have hb : b.totalCount < a.totalCount := Nat.lt_of_not_le hab
      by_cases hc : a.totalCount = c
      · have hbc : ¬ b.totalCount = c := by omega
        simp [List.filter_cons, hbc, hc, ih]
      · by_cases hbc : b.totalCount = c <;> simp [List.filter_cons, hbc, hc, ih]

/-- Insertion sort is stable: each `totalCount` class of the output is
the corresponding class of the input, in the input's order. -/
lemma filter_insertionSort (c : Nat) (l : List PatternRecord) :
    (l.insertionSort recLE).filter (fun r => decide (r.totalCount = c))
      = l.filter (fun r => decide (r.totalCount = c)) := by
  induction l with
  | nil => rfl
  | cons a l ih =>
    rw [List.insertionSort, filter_orderedInsert]
    by_cases hc : a.totalCount = c <;> simp [List.filter_cons, hc, ih]

/-- `Map.set` with a fresh key appends the pair. -/
lemma mapSet_fresh (groups : List (Str × PatternRecord)) (k : Str) (v : PatternRecord)
    (h : ∀ kv ∈ groups, kv.1 ≠ k) : mapSet groups k v = groups ++ [(k, v)] := by
  induction groups with
  | nil => rfl
  | cons hd rest ih =>
    obtain ⟨k', v'⟩ := hd
    show (if k' = k then (k, v) :: rest else (k', v') :: mapSet rest k v) = _
    rw [if_neg (h (k', v') (List.mem_cons_self _ _))]
    rw [ih (fun kv hkv => h kv (List.mem_cons_of_mem _ hkv))]
    rfl

/-- With pairwise-distinct lowercase keys, the aggregation fold appends
one keyed record per kept vocabulary entry, in vocabulary order. -/
lemma foldl_fresh (em sm : WordMap) (vocab : List (Str × Nat)) :
    ∀ groups : List (Str × PatternRecord),
      (vocab.map (fun e => lowerStr e.1)).Nodup →
      (∀ kv ∈ groups, ∀ e ∈ vocab, kv.1 ≠ lowerStr e.1) →
      vocab.foldl (patternGroupsStep em sm) groups
        = groups ++ vocab.filterMap (pairOfEntry em sm) := by
  induction vocab with
  | nil => intro groups _ _; simp
  | cons e rest ih =>
    intro groups hnd hdis
    rw [List.foldl_cons]
    have hstep : patternGroupsStep em sm groups e
        = groups ++ (pairOfEntry em sm e).toList := by
      unfold patternGroupsStep pairOfEntry recOfEntry
      dsimp only
      split <;> rename_i hc
      · rw [mapSet_fresh _ _ _ (fun kv hkv => hdis kv hkv e (List.mem_cons_self _ _))]
        rfl
      · simp
    have hdis' : ∀ kv ∈ groups ++ (pairOfEntry em sm e).toList,
        ∀ e' ∈ rest, kv.1 ≠ lowerStr e'.1 := by
      intro kv hkv e' he'
      rcases List.mem_append.1 hkv with hm | hm
      · exact hdis kv hm e' (List.mem_cons_of_mem _ he')
      · have hk : kv.1 = lowerStr e.1 := by
          unfold pairOfEntry at hm
          cases ho : recOfEntry em sm e <;> rw [ho] at hm
          · simp at hm
          · rename_i r
            simp at hm
            simp [hm]
        rw [hk]
        intro hco
        have hmem : lowerStr e.1 ∈ rest.map (fun e => lowerStr e.1) :=
          hco ▸ List.mem_map_of_mem _ he'
        exact (List.nodup_cons.1 hnd).1 hmem
    rw [hstep, ih _ (List.nodup_cons.1 hnd).2 hdis', List.append_assoc]
    congr 1
    rw [List.filterMap_cons]
    cases ho : pairOfEntry em sm e <;> simp [ho]

/-- With pairwise-distinct lowercase keys, the unsorted aggregate list is
the vocabulary filtered and mapped in its own iteration order. -/
lemma aggRecords_eq_filterMap (em sm : WordMap) (vocab : List (Str × Nat))
    (hnd : (vocab.map (fun e => lowerStr e.1)).Nodup) :
    aggRecords em sm vocab = vocab.filterMap (recOfEntry em sm) := by
  unfold aggRecords
  rw [foldl_fresh em sm vocab [] hnd (by intro kv hkv; cases hkv)]
  rw [List.nil_append, List.map_filterMap]
  refine List.filterMap_congr ?_
  intro e _
  unfold pairOfEntry
  cases ho : recOfEntry em sm e <;> simp [ho]

/-- C5: `patternsData` is sorted non-decreasing by `totalCount`; each
`totalCount` class keeps the pre-sort order, and (for a vocabulary whose
lowercased patterns are pairwise distinct, as `Object.entries` of a JS
object with case-insensitively distinct keys yields) the pre-sort order
is the vocabulary's iteration order — so ties are broken by original
vocabulary order. -/
theorem c5_patternsData_sorted_stable (em sm : WordMap) (vocab : List (Str × Nat)) :
    List.Sorted recLE (patternsData em sm vocab) ∧
    (∀ c : Nat,
      (patternsData em sm vocab).filter (fun r => decide (r.totalCount = c))
        = (aggRecords em sm vocab).filter (fun r => decide (r.totalCount = c))) ∧
    ((vocab.map (fun e => lowerStr e.1)).Nodup →
      aggRecords em sm vocab = vocab.filterMap (recOfEntry em sm)) :=
  ⟨List.sorted_insertionSort recLE _, fun c => filter_insertionSort c _,
    aggRecords_eq_filterMap em sm vocab⟩

/-- Witness for C5 on a two-word dictionary and two-entry vocabulary. -/
theorem c5_patternsData_sorted_stable_witness :
    aggRecords (buildEndsMap ["running".toList, "ripping".toList])
        (buildStartsMap ["running".toList, "ripping".toList])
        [("ing".toList, 3), ("ri".toList, 2)]
      = [("ing".toList, 3), ("ri".toList, 2)].filterMap
          (recOfEntry (buildEndsMap ["running".toList, "ripping".toList])
            (buildStartsMap ["running".toList, "ripping".toList])) :=
  (c5_patternsData_sorted_stable _ _ _).2.2 (by decide)

end GoofyJargon
